import Mathlib

/-!
Verification of the spanner-truncate deletion coordinator and schema filter.

The Go sources are shallowly embedded: schema descriptors become a Lean
structure, the mutable per-deleter status read by the coordinator becomes an
explicit status map passed to each function, and the filter fixed-point loop
becomes a fueled recursion (the fuel provably suffices to reach the fixed
point, which is where the Go loop stops).
-/

/-- Action type on parent delete (deleteActionType in table_schema.go). -/
inductive DeleteActionType where
  | undefined
  | cascadeDelete
  | noAction
deriving DecidableEq, Repr

/-- Delete status of one table (status in the deleter source). -/
inductive Status where
  | analyzing
  | waiting
  | deleting
  | cascadeDeleting
  | completed
deriving DecidableEq, Repr

/-- Table metadata and relationships (tableSchema in table_schema.go). -/
structure TableSchema where
  tableName : String
  parentTableName : String
  parentOnDeleteAction : DeleteActionType
  referencedBy : List String
deriving DecidableEq, Repr

/-- Method isCascadeDeletable of tableSchema. -/
def TableSchema.isCascadeDeletable (t : TableSchema) : Bool :=
  t.parentOnDeleteAction = DeleteActionType.cascadeDelete

/-- Method isRoot of tableSchema. -/
def TableSchema.isRoot (t : TableSchema) : Bool :=
  t.parentTableName = ""

/-- Filter of targetFilterTableSchemas (table_schema.go): keep exactly the
tables whose name is in the target list; with an empty target list return the
input unchanged. -/
def targetFilterTableSchemas (tables : List TableSchema)
    (targetTables : List String) : List TableSchema :=
  if targetTables.isEmpty then tables
  else tables.filter (fun t => targetTables.contains t.tableName)

/-- One pass of the fixed-point loop inside excludeFilterTableSchemas: collect
the parent names of cascade-deletable tables that are currently excluded and
whose parent is not excluded yet (the excludeParents map of one iteration). -/
def excludeParentsOnce (tables : List TableSchema)
    (excludes : List String) : List String :=
  tables.filterMap (fun t =>
    if excludes.contains t.tableName && t.isCascadeDeletable
        && !(excludes.contains t.parentTableName)
    then some t.parentTableName else none)

/-- The fixed-point loop of excludeFilterTableSchemas, with explicit fuel.
The Go loop repeats until one pass adds no parent; every pass adds at least
one new name drawn from the parent names occurring in the table list, so
fuel tables.length + 1 always reaches the fixed point (proved below). -/
def excludeExpand (tables : List TableSchema) :
    Nat → List String → List String
  | 0, excludes => excludes
  | fuel + 1, excludes =>
    if (excludeParentsOnce tables excludes).isEmpty then excludes
    else excludeExpand tables fuel (excludes ++ excludeParentsOnce tables excludes)

/-- Filter of excludeFilterTableSchemas (table_schema.go): drop the named
tables together with every ancestor reached by walking cascade edges upward
to a fixed point; with an empty exclude list return the input unchanged. -/
def excludeFilterTableSchemas (tables : List TableSchema)
    (excludeTables : List String) : List TableSchema :=
  if excludeTables.isEmpty then tables
  else tables.filter (fun t =>
    !((excludeExpand tables (tables.length + 1) excludeTables).contains
      t.tableName))

/-- Dispatch of filterTableSchemas (table_schema.go): both modes set is an
error, otherwise apply the non-empty mode, otherwise the identity. -/
def filterTableSchemas (tables : List TableSchema)
    (targetTables excludeTables : List String) :
    Except String (List TableSchema) :=
  match !targetTables.isEmpty, !excludeTables.isEmpty with
  | true, true =>
    Except.error "both targetTables and excludeTables cannot be specified at the same time"
  | true, false => Except.ok (targetFilterTableSchemas tables targetTables)
  | false, true => Except.ok (excludeFilterTableSchemas tables excludeTables)
  | false, false => Except.ok tables

/-- Closure of names removed by exclude mode, as the spec words it: the
excluded names themselves, and repeatedly the interleave parent of any
already-removed table whose own onParentDelete is Cascade. -/
inductive ExcludedName (tables : List TableSchema) (excludeTables : List String) :
    String → Prop
  | base (n : String) : n ∈ excludeTables → ExcludedName tables excludeTables n
  | up (t : TableSchema) : t ∈ tables →
      ExcludedName tables excludeTables t.tableName →
      t.parentOnDeleteAction = DeleteActionType.cascadeDelete →
      ExcludedName tables excludeTables t.parentTableName

/-- Interleave chain up to a target, as the spec words target mode: a table is
cascade-reachable from the target list when every hop of its interleave chain
up to some named target is marked Cascade. -/
inductive CascadeReachableFromTarget (tables : List TableSchema)
    (targetTables : List String) : TableSchema → Prop
  | direct (t : TableSchema) : t ∈ tables →
      t.parentTableName ∈ targetTables →
      t.parentOnDeleteAction = DeleteActionType.cascadeDelete →
      CascadeReachableFromTarget tables targetTables t
  | step (t u : TableSchema) : t ∈ tables →
      CascadeReachableFromTarget tables targetTables u →
      t.parentTableName = u.tableName →
      t.parentOnDeleteAction = DeleteActionType.cascadeDelete →
      CascadeReachableFromTarget tables targetTables t

/-!
The relationship graph of main.go. The mutable deleter status read through
child.deleter.status is embedded as an explicit map σ from table name to
status (table names are unique in a database). The node struct of main.go has
no hasGlobalIndex field; the field is carried here so that the same node type
serves the newer coordinator (known only from its tests), and none of the
main.go functions below reads it.
-/

/-- Graph node (table in main.go): name, interleave children, the copied
onParentDelete action, the names of referencing tables, and the global-index
flag of the newer coordinator. -/
inductive Table where
  | mk (tableName : String) (childTables : List Table)
       (parentOnDeleteAction : DeleteActionType)
       (referencedBy : List String)
       (hasGlobalIndex : Bool)

@[simp] def Table.tableName : Table → String
  | .mk n _ _ _ _ => n

@[simp] def Table.childTables : Table → List Table
  | .mk _ cs _ _ _ => cs

@[simp] def Table.parentOnDeleteAction : Table → DeleteActionType
  | .mk _ _ a _ _ => a

@[simp] def Table.referencedBy : Table → List String
  | .mk _ _ _ r _ => r

@[simp] def Table.hasGlobalIndex : Table → Bool
  | .mk _ _ _ _ g => g

mutual

/-- Method isDeletable of table (main.go): every no-action child must be
Completed, every child must itself be deletable, and every referencing table
must be Completed. -/
def isDeletable (σ : String → Status) : Table → Bool
  | .mk _ children _ referencedBy _ =>
    isDeletableChildren σ children
      && referencedBy.all (fun r => σ r = Status.completed)

/-- Loop over the children inside isDeletable, in order. -/
def isDeletableChildren (σ : String → Status) : List Table → Bool
  | [] => true
  | c :: cs =>
    !(c.parentOnDeleteAction = DeleteActionType.noAction
        && !(σ c.tableName = Status.completed))
      && isDeletable σ c && isDeletableChildren σ cs

end

mutual

/-- Function findDeletableTables of main.go: walk the forest, skip nodes in
Deleting or Completed, select a node satisfying isDeletable without
descending, otherwise recurse into its children. -/
def findDeletableTables (σ : String → Status) : List Table → List Table
  | [] => []
  | t :: ts => findDeletableOne σ t ++ findDeletableTables σ ts

/-- Body of the findDeletableTables loop for one node. The Go code guards the
child recursion with a non-empty check; on an empty child list the recursion
returns the empty list, so the guard is dropped. -/
def findDeletableOne (σ : String → Status) : Table → List Table
  | t@(.mk tn cs _ _ _) =>
    if σ tn = Status.deleting ∨ σ tn = Status.completed then []
    else if isDeletable σ t then [t]
    else findDeletableTables σ cs

end

mutual

/-- Function flattenTables of main.go: preorder flattening of the forest. -/
def flattenTables : List Table → List Table
  | [] => []
  | t :: ts => flattenOne t ++ flattenTables ts

/-- Body of the flattenTables loop for one node. -/
def flattenOne : Table → List Table
  | t@(.mk _ cs _ _ _) => t :: flattenTables cs

end

mutual

/-- Function isAllTablesDeleted of main.go: every table of the forest,
including descendants, has status Completed. -/
def isAllTablesDeleted (σ : String → Status) : List Table → Bool
  | [] => true
  | t :: ts => isAllDeletedOne σ t && isAllTablesDeleted σ ts

/-- Body of the isAllTablesDeleted loop for one node. -/
def isAllDeletedOne (σ : String → Status) : Table → Bool
  | .mk tn cs _ _ _ =>
    (σ tn = Status.completed) && isAllTablesDeleted σ cs

end

mutual

/-- Function isAnyTableDeleting of main.go: some table of the forest has
status Deleting or CascadeDeleting. -/
def isAnyTableDeleting (σ : String → Status) : List Table → Bool
  | [] => false
  | t :: ts => isAnyDeletingOne σ t || isAnyTableDeleting σ ts

/-- Body of the isAnyTableDeleting loop for one node. -/
def isAnyDeletingOne (σ : String → Status) : Table → Bool
  | .mk tn cs _ _ _ =>
    (σ tn = Status.deleting || σ tn = Status.cascadeDeleting)
      || isAnyTableDeleting σ cs

end

/-- Stall decision of one scheduling tick in coordinator start (main.go): an
error is sent iff the deletable set is empty, not all tables are Completed,
and no table is Deleting or CascadeDeleting. -/
def stallOnTick (σ : String → Status) (tables : List Table) : Bool :=
  if (findDeletableTables σ tables).length = 0 then
    if !(isAllTablesDeleted σ tables) && !(isAnyTableDeleting σ tables) then true
    else false
  else false

/-- Function constructTableTree of main.go, with explicit fuel: collect, in
input order, the nodes whose parent name is the given one, building each
child list recursively. The Go recursion is on parent names and terminates
with depth at most the number of tables whenever table names are distinct;
the fuel below is instantiated accordingly. -/
def constructTableTree (schemas : List TableSchema) :
    Nat → String → List Table
  | 0, _ => []
  | fuel + 1, parentTableName =>
    schemas.filterMap (fun s =>
      if s.parentTableName = parentTableName then
        some (Table.mk s.tableName (constructTableTree schemas fuel s.tableName)
          s.parentOnDeleteAction s.referencedBy false)
      else none)

/-- Forest built by newCoordinator (main.go): nodes are created per schema,
FK references attached, then constructTableTree is called with root name "". -/
def newCoordinatorTables (schemas : List TableSchema) : List Table :=
  constructTableTree schemas (schemas.length + 1) ""

/-- Modelled from the spec: graph builder step 2 of the missing current
coordinator (only its tests are in the source tree). A descriptor whose
parent name is present in the descriptor map becomes a child of that parent,
in input order; a descriptor whose parent is absent is treated as a root and
kept in the returned forest. -/
def specForestFromSchemas (schemas : List TableSchema) : List Table :=
  let names := schemas.map (fun s => s.tableName)
  schemas.filterMap (fun s =>
    if names.contains s.parentTableName then none
    else
      some (Table.mk s.tableName
        (constructTableTree schemas (schemas.length + 1) s.tableName)
        s.parentOnDeleteAction s.referencedBy false))

mutual

/-- Modelled from the spec: deletability rule 4 of the missing current
coordinator (present in the source tree only through coordinator_test.go).
A child with a global index that is not Completed blocks its parent; the
table's own global index does not block the table itself. -/
def isDeletableWithIndex (σ : String → Status) : Table → Bool
  | .mk _ children _ referencedBy _ =>
    isDeletableChildrenWithIndex σ children
      && referencedBy.all (fun r => σ r = Status.completed)

/-- Modelled from the spec: child loop of isDeletableWithIndex. -/
def isDeletableChildrenWithIndex (σ : String → Status) : List Table → Bool
  | [] => true
  | c :: cs =>
    !(c.parentOnDeleteAction = DeleteActionType.noAction
        && !(σ c.tableName = Status.completed))
      && !(c.hasGlobalIndex && !(σ c.tableName = Status.completed))
      && isDeletableWithIndex σ c && isDeletableChildrenWithIndex σ cs

end

mutual

/-- Modelled from the spec: findDeletable of the missing current coordinator,
identical to findDeletableTables but using the index-aware predicate. -/
def findDeletableTablesWithIndex (σ : String → Status) : List Table → List Table
  | [] => []
  | t :: ts => findDeletableOneWithIndex σ t ++ findDeletableTablesWithIndex σ ts

/-- Modelled from the spec: loop body of findDeletableTablesWithIndex. -/
def findDeletableOneWithIndex (σ : String → Status) : Table → List Table
  | t@(.mk tn cs _ _ _) =>
    if σ tn = Status.deleting ∨ σ tn = Status.completed then []
    else if isDeletableWithIndex σ t then [t]
    else findDeletableTablesWithIndex σ cs

end

/-!
The per-table deleter and the coordinator loop as a labelled transition
system. A system state carries each deleter's record, the actual row count of
each table in the database, and whether the row-count sampler goroutine of
the table is still running. The tick of the coordinator is modelled
atomically: the selected tables' deleteRows calls begin (setting Deleting)
and their descendants are marked CascadeDeleting within the tick.
-/

/-- Mutable fields of deleter (the per-table state machine). -/
structure DeleterState where
  status : Status
  totalRows : Nat
  remainedRows : Nat
deriving DecidableEq, Repr

/-- Method deleteRows of deleter: set status to Deleting, run the partitioned
DML (its outcome is an input here), and return its error if any. The deleter
fields other than status are untouched on every outcome. -/
def deleteRows (d : DeleterState) (pdmlOutcome : Except String Nat) :
    DeleterState × Option String :=
  ({ d with status := Status.deleting },
    match pdmlOutcome with
    | Except.ok _ => none
    | Except.error e => some e)

/-- Method updateRowCount of deleter, applied to an observed COUNT value.
The Go body assigns in sequence: totalRows on first non-set observation,
then remainedRows, then the status move (Completed on zero, else Analyzing
to Waiting); the assignments touch disjoint fields, so they are written here
as one record. -/
def updateRowCount (d : DeleterState) (count : Nat) : DeleterState :=
  { status :=
      if count = 0 then Status.completed
      else if d.status = Status.analyzing then Status.waiting
      else d.status
    totalRows := if d.totalRows = 0 then count else d.totalRows
    remainedRows := count }

/-- Method parentDeletionStarted of deleter (markCascading in the spec). -/
def parentDeletionStarted (d : DeleterState) : DeleterState :=
  { d with status := Status.cascadeDeleting }

/-- Whole-system state: deleter records, database row counts, liveness of
each row-count sampler goroutine, and the deleteRows goroutines that the
tick has spawned but whose initial status write has not landed yet. -/
structure SysState where
  deleters : String → DeleterState
  dbRows : String → Nat
  samplerAlive : String → Bool
  pendingDelete : String → Bool

/-- Status map read by the coordinator from the deleters. -/
def statusMap (s : SysState) : String → Status :=
  fun n => (s.deleters n).status

/-- One observation of the row-count sampler of table n. -/
def applySample (s : SysState) (n : String) : SysState :=
  { s with deleters := fun m =>
      if m = n then updateRowCount (s.deleters m) (s.dbRows n) else s.deleters m }

/-- Exit of the sampler goroutine of table n after it sees Completed. -/
def applySamplerExit (s : SysState) (n : String) : SysState :=
  { s with samplerAlive := fun m => if m = n then false else s.samplerAlive m }

/-- Status effect of one selected table inside the tick: the coordinator
itself only calls cascadeDelete on the subtree, marking every descendant
CascadeDeleting; the deleteRows call of the selected table runs in a spawned
goroutine and writes its status later (see applyDeleteStart). -/
def tickMark (ds : String → DeleterState) (t : Table) : String → DeleterState :=
  fun n =>
    if ((flattenTables t.childTables).map Table.tableName).contains n then
      parentDeletionStarted (ds n)
    else ds n

/-- One scheduling tick of coordinator start (main.go): compute the deletable
set from the current statuses, spawn a deleteRows goroutine for each
selected table (recorded as pending), and cascade-mark its descendants. -/
def markTick (forest : List Table) (s : SysState) : SysState :=
  { s with
    deleters :=
      (findDeletableTables (statusMap s) forest).foldl tickMark s.deleters
    pendingDelete := fun n =>
      if ((findDeletableTables (statusMap s) forest).map
          Table.tableName).contains n then true
      else s.pendingDelete n }

/-- The spawned deleteRows goroutine of table n begins executing: its first
action is the unconditional status write to Deleting, at whatever later
moment the scheduler runs it. -/
def applyDeleteStart (s : SysState) (n : String) : SysState :=
  { s with
    deleters := fun m =>
      if m = n then (deleteRows (s.deleters m) (Except.ok 0)).1
      else s.deleters m
    pendingDelete := fun m => if m = n then false else s.pendingDelete m }

/-- Labels of system transitions. -/
inductive Event where
  | sample (n : String)
  | samplerExit (n : String)
  | tick
  | deleteStart (n : String)
  | rowsChange (n : String) (m : Nat)
deriving DecidableEq, Repr

/-- Transitions of the system: a sampler observation, a sampler exit, one
coordinator tick, the delayed begin of a spawned deleteRows goroutine, and
the database rows of a table shrinking while it is being deleted directly or
by cascade. -/
inductive Step (forest : List Table) : SysState → Event → SysState → Prop
  | sample (s : SysState) (n : String) :
      n ∈ (flattenTables forest).map Table.tableName →
      s.samplerAlive n = true →
      (s.deleters n).status ≠ Status.completed →
      Step forest s (Event.sample n) (applySample s n)
  | samplerExit (s : SysState) (n : String) :
      s.samplerAlive n = true →
      (s.deleters n).status = Status.completed →
      Step forest s (Event.samplerExit n) (applySamplerExit s n)
  | tick (s : SysState) :
      Step forest s Event.tick (markTick forest s)
  | deleteStart (s : SysState) (n : String) :
      s.pendingDelete n = true →
      Step forest s (Event.deleteStart n) (applyDeleteStart s n)
  | rowsChange (s : SysState) (n : String) (m : Nat) :
      ((s.deleters n).status = Status.deleting
        ∨ (s.deleters n).status = Status.cascadeDeleting) →
      m ≤ s.dbRows n →
      Step forest s (Event.rowsChange n m)
        { s with dbRows := fun k => if k = n then m else s.dbRows k }

/-- Startup state: every deleter Analyzing with zero counters, samplers all
started, database rows given, no delete spawned. -/
def initState (rows : String → Nat) : SysState :=
  { deleters := fun _ => ⟨Status.analyzing, 0, 0⟩
    dbRows := rows
    samplerAlive := fun _ => true
    pendingDelete := fun _ => false }

/-- States reachable from startup. -/
inductive Reachable (forest : List Table) (rows : String → Nat) : SysState → Prop
  | init : Reachable forest rows (initState rows)
  | step {s s2 : SysState} {e : Event} :
      Reachable forest rows s → Step forest s e s2 → Reachable forest rows s2

-- Table names used by the concrete scenarios below.
def nA : String := "A"
def nB : String := "B"
def nC : String := "C"

def schemaA : TableSchema := ⟨nA, "", DeleteActionType.undefined, []⟩
def schemaBNoAct : TableSchema := ⟨nB, nA, DeleteActionType.noAction, []⟩
def schemaCCascade : TableSchema := ⟨nC, nB, DeleteActionType.cascadeDelete, []⟩

/-- Cascade child of A, for the target-mode scenario. -/
def schemaBCascade : TableSchema := ⟨nB, nA, DeleteActionType.cascadeDelete, []⟩

-- Interleave chain A ← B, B cascade with a global index (scenario 5 of the
-- spec), and the two status maps of that scenario.
def tGB : Table := Table.mk nB [] DeleteActionType.cascadeDelete [] true
def tGA : Table := Table.mk nA [tGB] DeleteActionType.undefined [] false
def σFresh : String → Status := fun _ => Status.waiting
def σBDone : String → Status :=
  fun n => if n = nB then Status.completed else Status.waiting

-- Interleave chain A ← C, C cascade, with C empty in the database from the
-- start: a run reaches a Completed child that is then marked cascading.
def tCc : Table := Table.mk nC [] DeleteActionType.cascadeDelete [] false
def tAroot : Table := Table.mk nA [tCc] DeleteActionType.undefined [] false
def forest0 : List Table := [tAroot]
def rows0 : String → Nat := fun n => if n = nA then 5 else 0
def state1 : SysState := applySample (initState rows0) nC
def state2 : SysState := markTick forest0 state1

-- Single empty table A: the tick selects it and spawns its delete, the
-- sampler completes it first, and the delayed goroutine then writes
-- Deleting over Completed.
def tA0 : Table := Table.mk nA [] DeleteActionType.undefined [] false
def forest1 : List Table := [tA0]
def rows1 : String → Nat := fun _ => 0
def state3 : SysState := markTick forest1 (initState rows1)
def state4 : SysState := applySample state3 nA
def state5 : SysState := applyDeleteStart state4 nA

/-- Parent names occurring in a table list, deduplicated: the pool from which
the exclude fixed-point loop can ever draw a new name (proof measure). -/
def parentPool (tables : List TableSchema) : List String :=
  (tables.map fun t => t.parentTableName).dedup

/-- Number of pool names not yet excluded (proof measure of the loop). -/
def poolLeft (tables : List TableSchema) (excludes : List String) : Nat :=
  ((parentPool tables).filter (fun p => !(excludes.contains p))).length

/-!
Lemmas about the exclude fixed-point loop.
-/

theorem mem_excludeParentsOnce {tables : List TableSchema} {ex : List String}
    {p : String} :
    p ∈ excludeParentsOnce tables ex ↔
      ∃ t, t ∈ tables ∧ t.tableName ∈ ex
        ∧ t.parentOnDeleteAction = DeleteActionType.cascadeDelete
        ∧ t.parentTableName ∉ ex ∧ t.parentTableName = p := by
  simp only [excludeParentsOnce, List.mem_filterMap, TableSchema.isCascadeDeletable]
  simp
  tauto

theorem subset_excludeExpand (tables : List TableSchema) :
    ∀ (fuel : Nat) (ex : List String), ex ⊆ excludeExpand tables fuel ex
  | 0, ex => by simp [excludeExpand]
  | fuel + 1, ex => by
    simp only [excludeExpand]
    split
    · exact List.Subset.refl ex
    · exact List.Subset.trans (List.subset_append_left ex _)
        (subset_excludeExpand tables fuel _)

theorem excludeExpand_sound (tables : List TableSchema) (E : List String) :
    ∀ (fuel : Nat) (ex : List String),
      (∀ m ∈ ex, ExcludedName tables E m) →
      ∀ n ∈ excludeExpand tables fuel ex, ExcludedName tables E n
  | 0, ex => by
    intro h n hn
    simp only [excludeExpand] at hn
    exact h n hn
  | fuel + 1, ex => by
    intro h n hn
    simp only [excludeExpand] at hn
    split at hn
    · exact h n hn
    · refine excludeExpand_sound tables E fuel _ ?_ n hn
      intro m hm
      rcases List.mem_append.mp hm with hm2 | hm2
      · exact h m hm2
      · rcases mem_excludeParentsOnce.mp hm2 with ⟨t, ht, hname, hcasc, _, hp⟩
        exact hp ▸ ExcludedName.up t ht (h _ hname) hcasc

theorem length_filter_le_of_imp {α : Type} (l : List α) (p q : α → Bool)
    (h : ∀ x ∈ l, q x = true → p x = true) :
    (l.filter q).length ≤ (l.filter p).length := by
  induction l with
  | nil => simp
  | cons a t ih =>
    have ih2 := ih fun x hx => h x (List.mem_cons_of_mem a hx)
    by_cases hq : q a = true
    · have hp := h a (List.mem_cons_self a t) hq
      simp only [List.filter_cons, hq, if_pos, hp, List.length_cons]
      omega
    · have hq2 : q a = false := by revert hq; cases q a <;> simp
      simp only [List.filter_cons, hq2, Bool.false_eq_true, if_false]
      cases hp : p a <;> simp <;> omega

theorem length_filter_lt_of_witness {α : Type} (l : List α) (p q : α → Bool)
    (h : ∀ x ∈ l, q x = true → p x = true) (x : α) (hx : x ∈ l)
    (hpx : p x = true) (hqx : q x = false) :
    (l.filter q).length < (l.filter p).length := by
  induction l with
  | nil => cases hx
  | cons a t ih =>
    have hrest : ∀ y ∈ t, q y = true → p y = true :=
      fun y hy => h y (List.mem_cons_of_mem a hy)
    rcases List.mem_cons.mp hx with rfl | hx2
    · have hle := length_filter_le_of_imp t p q hrest
      simp only [List.filter_cons, hqx, Bool.false_eq_true, if_false, hpx,
        if_pos, List.length_cons]
      omega
    · have ih2 := ih hrest hx2
      by_cases hq : q a = true
      · have hp := h a (List.mem_cons_self a t) hq
        simp only [List.filter_cons, hq, if_pos, hp, List.length_cons]
        omega
      · have hq2 : q a = false := by revert hq; cases q a <;> simp
        simp only [List.filter_cons, hq2, Bool.false_eq_true, if_false]
        cases hp : p a <;> simp <;> omega

theorem poolLeft_decreases {tables : List TableSchema} {ex : List String}
    (hne : (excludeParentsOnce tables ex).isEmpty = false) :
    poolLeft tables (ex ++ excludeParentsOnce tables ex) < poolLeft tables ex := by
  obtain ⟨p, hp⟩ : ∃ p, p ∈ excludeParentsOnce tables ex :=
    List.exists_mem_of_ne_nil _ (fun h => by rw [h] at hne; simp at hne)
  obtain ⟨t, ht, _, _, hnotex, hpt⟩ := mem_excludeParentsOnce.mp hp
  simp only [poolLeft]
  apply length_filter_lt_of_witness _ _ _ ?_ p ?_ ?_ ?_
  · intro x _ hqx
    have hx2 : x ∉ ex ++ excludeParentsOnce tables ex := by simpa using hqx
    have hx3 : x ∉ ex := fun hxe => hx2 (List.mem_append.mpr (Or.inl hxe))
    simpa using hx3
  · simp only [parentPool, List.mem_dedup, List.mem_map]
    exact ⟨t, ht, hpt⟩
  · have hp2 : p ∉ ex := hpt ▸ hnotex
    simpa using hp2
  · simp
    exact fun _ => hp

theorem poolLeft_le (tables : List TableSchema) (ex : List String) :
    poolLeft tables ex ≤ tables.length := by
  simp only [poolLeft, parentPool]
  calc ((tables.map fun t => t.parentTableName).dedup.filter
          (fun p => !(ex.contains p))).length
      ≤ (tables.map fun t => t.parentTableName).dedup.length :=
        List.length_filter_le _ _
    _ ≤ (tables.map fun t => t.parentTableName).length :=
        (List.dedup_sublist _).length_le
    _ = tables.length := List.length_map _ _

theorem excludeExpand_fixpoint (tables : List TableSchema) :
    ∀ (fuel : Nat) (ex : List String), poolLeft tables ex < fuel →
      excludeParentsOnce tables (excludeExpand tables fuel ex) = []
  | 0, ex => by omega
  | fuel + 1, ex => by
    intro h
    simp only [excludeExpand]
    split
    · next hemp => exact List.isEmpty_iff.mp hemp
    · next hemp =>
      apply excludeExpand_fixpoint tables fuel
      have hd := @poolLeft_decreases tables ex
        (by revert hemp; cases (excludeParentsOnce tables ex).isEmpty <;> simp)
      omega

theorem excluded_mem_expand {tables : List TableSchema} {E : List String}
    {n : String} (h : ExcludedName tables E n) :
    n ∈ excludeExpand tables (tables.length + 1) E := by
  induction h with
  | base m hm => exact subset_excludeExpand tables _ E hm
  | up t ht _ hcasc ih =>
    by_contra hnot
    have hfix : excludeParentsOnce tables
        (excludeExpand tables (tables.length + 1) E) = [] :=
      excludeExpand_fixpoint tables _ E (Nat.lt_succ_of_le (poolLeft_le tables E))
    have hmem : t.parentTableName ∈ excludeParentsOnce tables
        (excludeExpand tables (tables.length + 1) E) :=
      mem_excludeParentsOnce.mpr ⟨t, ht, ih, hcasc, hnot, rfl⟩
    rw [hfix] at hmem
    cases hmem

theorem not_excluded_nil {tables : List TableSchema} {n : String} :
    ¬ ExcludedName tables [] n := by
  intro h
  induction h with
  | base m hm => cases hm
  | up t _ _ _ ih => exact ih

theorem mem_excludeFilter {tables : List TableSchema} {E : List String}
    {t : TableSchema} :
    t ∈ excludeFilterTableSchemas tables E ↔
      t ∈ tables ∧ ¬ ExcludedName tables E t.tableName := by
  by_cases hE : E.isEmpty
  · have hEnil : E = [] := List.isEmpty_iff.mp hE
    subst hEnil
    simp only [excludeFilterTableSchemas, List.isEmpty_nil, if_pos]
    exact ⟨fun h => ⟨h, not_excluded_nil⟩, fun h => h.1⟩
  · rw [excludeFilterTableSchemas, if_neg hE]
    rw [List.mem_filter]
    constructor
    · rintro ⟨h1, h2⟩
      refine ⟨h1, fun hexc => ?_⟩
      have hmem := excluded_mem_expand hexc
      simp at h2
      exact h2 hmem
    · rintro ⟨h1, h2⟩
      refine ⟨h1, ?_⟩
      have hnot : t.tableName ∉ excludeExpand tables (tables.length + 1) E := by
        intro hmem
        exact h2 (excludeExpand_sound tables E _ E
          (fun m hm => ExcludedName.base m hm) _ hmem)
      simpa using hnot

theorem excludedName_inversion {tables : List TableSchema}
    {E : List String} {n : String} (h : ExcludedName tables E n) (hn : n ∉ E) :
    ∃ c, c ∈ tables ∧ c.parentOnDeleteAction = DeleteActionType.cascadeDelete
      ∧ c.parentTableName = n ∧ ExcludedName tables E c.tableName := by
  cases h with
  | base _ hm => exact absurd hm hn
  | up c hc hprev hcasc => exact ⟨c, hc, hcasc, rfl, hprev⟩

theorem mem_targetFilter {tables : List TableSchema} {targets : List String}
    {t : TableSchema} (hne : targets ≠ []) :
    t ∈ targetFilterTableSchemas tables targets ↔
      t ∈ tables ∧ t.tableName ∈ targets := by
  rw [targetFilterTableSchemas, if_neg (by simpa using hne)]
  rw [List.mem_filter]
  simp

theorem targetFilter_idempotent (tables : List TableSchema) (T : List String) :
    targetFilterTableSchemas (targetFilterTableSchemas tables T) T
      = targetFilterTableSchemas tables T := by
  by_cases hT : T.isEmpty
  · simp [targetFilterTableSchemas, hT]
  · rw [targetFilterTableSchemas, if_neg hT, targetFilterTableSchemas, if_neg hT]
    apply List.filter_eq_self.mpr
    intro a ha
    exact (List.mem_filter.mp ha).2

theorem excludeFilter_idempotent (tables : List TableSchema) (E : List String) :
    excludeFilterTableSchemas (excludeFilterTableSchemas tables E) E
      = excludeFilterTableSchemas tables E := by
  by_cases hE : E.isEmpty
  · simp [excludeFilterTableSchemas, hE]
  · have hmemE : ∀ t ∈ excludeFilterTableSchemas tables E, t.tableName ∉ E := by
      intro t htm hnE
      exact (mem_excludeFilter.mp htm).2 (ExcludedName.base _ hnE)
    have honce : excludeParentsOnce (excludeFilterTableSchemas tables E) E = [] := by
      apply List.eq_nil_iff_forall_not_mem.mpr
      intro p hp
      obtain ⟨t, htm, hname, _, _, _⟩ := mem_excludeParentsOnce.mp hp
      exact hmemE t htm hname
    have hexp : excludeExpand (excludeFilterTableSchemas tables E)
        ((excludeFilterTableSchemas tables E).length + 1) E = E := by
      rw [excludeExpand, honce]
      simp
    conv_lhs => rw [excludeFilterTableSchemas]
    rw [if_neg hE, hexp]
    apply List.filter_eq_self.mpr
    intro a ha
    simpa using hmemE a ha

/-- Claim C3, counterexample: descriptor B is a cascade child of targeted A
(so the claimed kept set contains it), yet target filtering drops it: the
code keeps only the named tables and never adds cascade descendants. -/
theorem targetFilter_cascade_descendant_dropped :
    CascadeReachableFromTarget [schemaA, schemaBCascade] [nA] schemaBCascade
      ∧ schemaBCascade ∉ targetFilterTableSchemas [schemaA, schemaBCascade] [nA] :=
  ⟨CascadeReachableFromTarget.direct schemaBCascade (by decide) (by decide)
      (by decide),
    by decide⟩

/-- Claim C3, amended: for every descriptor set and non-empty target list,
target-mode filtering keeps exactly the tables whose name is in the target
list; cascade-reachable descendants of the targets are not added. -/
theorem targetFilter_keeps_named_only :
    ∀ (tables : List TableSchema) (targetTables : List String),
      targetTables ≠ [] →
      ∀ t : TableSchema, t ∈ targetFilterTableSchemas tables targetTables ↔
        t ∈ tables ∧ t.tableName ∈ targetTables :=
  fun _ _ hne _ => mem_targetFilter hne

/-- Witness of the amended claim C3 on a concrete two-table set. -/
theorem targetFilter_keeps_named_only_witness :
    schemaA ∈ targetFilterTableSchemas [schemaA, schemaBCascade] [nA] ↔
      schemaA ∈ [schemaA, schemaBCascade] ∧ schemaA.tableName ∈ [nA] :=
  targetFilter_keeps_named_only [schemaA, schemaBCascade] [nA] (by decide) schemaA

/-- Claim C4: for every descriptor set and non-empty exclude list, the
removed set of exclude-mode filtering is exactly the exclude list together
with the fixed-point closure of cascade ancestors (a table of the set is
removed iff its name lies in that closure). -/
theorem excludeFilter_removed_set_is_cascade_closure :
    ∀ (tables : List TableSchema) (excludeTables : List String),
      excludeTables ≠ [] →
      ∀ t ∈ tables,
        (t ∉ excludeFilterTableSchemas tables excludeTables ↔
          ExcludedName tables excludeTables t.tableName) := by
  intro tables E _ t ht
  constructor
  · intro hrem
    by_contra hexc
    exact hrem (mem_excludeFilter.mpr ⟨ht, hexc⟩)
  · intro hexc hmem
    exact (mem_excludeFilter.mp hmem).2 hexc

/-- Witness of claim C4: the chain A ← B ← C with C excluded. -/
theorem excludeFilter_removed_set_is_cascade_closure_witness :
    schemaCCascade ∉ excludeFilterTableSchemas
        [schemaA, schemaBNoAct, schemaCCascade] [nC] ↔
      ExcludedName [schemaA, schemaBNoAct, schemaCCascade] [nC]
        schemaCCascade.tableName :=
  excludeFilter_removed_set_is_cascade_closure
    [schemaA, schemaBNoAct, schemaCCascade] [nC] (by decide)
    schemaCCascade (by decide)

/-- Claim C8, counterexample: in the chain A ← B (NoAction) ← C (Cascade)
with exclude list [C], table B is removed as an ancestor although its own
onParentDelete is NoAction and it is not named in the exclude list. -/
theorem noaction_ancestor_removed :
    schemaBNoAct ∈ [schemaA, schemaBNoAct, schemaCCascade]
      ∧ schemaBNoAct ∉ excludeFilterTableSchemas
          [schemaA, schemaBNoAct, schemaCCascade] [nC]
      ∧ schemaBNoAct.tableName ∉ [nC]
      ∧ schemaBNoAct.parentOnDeleteAction = DeleteActionType.noAction :=
  ⟨by decide, by decide, by decide, by decide⟩

/-- Claim C8, amended: a table not named in the exclude list is removed by
exclude filtering iff it is the interleave parent of some removed table of
the set whose own onParentDelete is Cascade (the ancestor walk crosses only
Cascade hops read on the child side); the removed ancestor itself may carry
any onParentDelete value, including NoAction. -/
theorem removed_ancestor_has_cascade_child :
    ∀ (tables : List TableSchema) (excludeTables : List String),
      ∀ t ∈ tables,
        t.tableName ∉ excludeTables →
        (t ∉ excludeFilterTableSchemas tables excludeTables ↔
          ∃ c, c ∈ tables
            ∧ c.parentOnDeleteAction = DeleteActionType.cascadeDelete
            ∧ c.parentTableName = t.tableName
            ∧ ExcludedName tables excludeTables c.tableName) := by
  intro tables E t ht hnotE
  constructor
  · intro hrem
    have hexc : ExcludedName tables E t.tableName := by
      by_contra hexc
      exact hrem (mem_excludeFilter.mpr ⟨ht, hexc⟩)
    exact excludedName_inversion hexc hnotE
  · rintro ⟨c, hc, hcasc, hparent, hexc⟩ hmem
    have hup : ExcludedName tables E t.tableName :=
      hparent ▸ ExcludedName.up c hc hexc hcasc
    exact (mem_excludeFilter.mp hmem).2 hup

/-- Witness of the amended claim C8 at the removed NoAction ancestor B. -/
theorem removed_ancestor_has_cascade_child_witness :
    ∃ c, c ∈ [schemaA, schemaBNoAct, schemaCCascade]
      ∧ c.parentOnDeleteAction = DeleteActionType.cascadeDelete
      ∧ c.parentTableName = schemaBNoAct.tableName
      ∧ ExcludedName [schemaA, schemaBNoAct, schemaCCascade] [nC] c.tableName :=
  (removed_ancestor_has_cascade_child [schemaA, schemaBNoAct, schemaCCascade]
    [nC] schemaBNoAct (by decide) (by decide)).mp (by decide)

/-- Claim C9: the schema filter is idempotent in every selection mode; a
successful filter application is a fixed point of the same application. -/
theorem filterTableSchemas_idempotent :
    ∀ (tables : List TableSchema) (targetTables excludeTables : List String)
      (result : List TableSchema),
      filterTableSchemas tables targetTables excludeTables = Except.ok result →
      filterTableSchemas result targetTables excludeTables = Except.ok result := by
  intro tables tg ex result h
  by_cases htg : tg.isEmpty
  · by_cases hex : ex.isEmpty
    · simp only [filterTableSchemas, htg, hex, Bool.not_true] at h ⊢
    · simp only [filterTableSchemas, htg, hex, Bool.not_true, Bool.not_false]
        at h ⊢
      simp only [Except.ok.injEq] at h
      subst h
      rw [excludeFilter_idempotent]
  · by_cases hex : ex.isEmpty
    · simp only [filterTableSchemas, htg, hex, Bool.not_true, Bool.not_false]
        at h ⊢
      simp only [Except.ok.injEq] at h
      subst h
      rw [targetFilter_idempotent]
    · simp only [filterTableSchemas, htg, hex, Bool.not_true, Bool.not_false]
        at h
      exact Except.noConfusion h

/-- Witness of claim C9: excluding C from the chain removes B and C, and the
second application leaves the result untouched. -/
theorem filterTableSchemas_idempotent_witness :
    filterTableSchemas [schemaA] [] [nC] = Except.ok [schemaA] :=
  filterTableSchemas_idempotent [schemaA, schemaBNoAct, schemaCCascade]
    [] [nC] [schemaA] rfl

theorem isDeletableChildren_iff (σ : String → Status) (cs : List Table) :
    isDeletableChildren σ cs = true ↔
      ∀ c ∈ cs, (c.parentOnDeleteAction = DeleteActionType.noAction →
        σ c.tableName = Status.completed) ∧ isDeletable σ c = true := by
  induction cs with
  | nil => simp [isDeletableChildren]
  | cons c cs ih =>
    cases c with
    | mk cn ccs ca crs cg =>
      rw [isDeletableChildren]
      simp only [Bool.and_eq_true, Bool.not_eq_true', ih, List.mem_cons,
        Bool.and_eq_false_iff, Bool.not_eq_false, decide_eq_true_eq,
        decide_eq_false_iff_not, Table.parentOnDeleteAction, Table.tableName]
      constructor
      · rintro ⟨⟨hna, hdel⟩, hrest⟩ d hd
        rcases hd with rfl | hd
        · simp only [Table.parentOnDeleteAction, Table.tableName]
          refine ⟨?_, hdel⟩
          intro hact
          rcases hna with hna | hna
          · exact absurd hact hna
          · simpa using hna
        · exact hrest d hd
      · intro h
        have hhead := h (Table.mk cn ccs ca crs cg) (Or.inl rfl)
        simp only [Table.parentOnDeleteAction, Table.tableName] at hhead
        refine ⟨⟨?_, hhead.2⟩, fun d hd => h d (Or.inr hd)⟩
        by_cases hact : ca = DeleteActionType.noAction
        · exact Or.inr (by simp [hhead.1 hact])
        · exact Or.inl hact

/-- Claim C1: the deletability predicate of main.go holds for a table iff
every NoAction child is Completed, every child is itself recursively
deletable, and every referencing table is Completed. -/
theorem isDeletable_characterization :
    ∀ (σ : String → Status) (t : Table),
      isDeletable σ t = true ↔
        ((∀ c ∈ t.childTables,
            c.parentOnDeleteAction = DeleteActionType.noAction →
              σ c.tableName = Status.completed)
          ∧ (∀ c ∈ t.childTables, isDeletable σ c = true)
          ∧ (∀ r ∈ t.referencedBy, σ r = Status.completed)) := by
  intro σ t
  cases t with
  | mk n cs a r g =>
    rw [isDeletable]
    simp only [Bool.and_eq_true, isDeletableChildren_iff, List.all_eq_true,
      decide_eq_true_eq, Table.childTables, Table.referencedBy]
    constructor
    · rintro ⟨hc, hr⟩
      exact ⟨fun c hcm => (hc c hcm).1, fun c hcm => (hc c hcm).2, hr⟩
    · rintro ⟨h1, h2, hr⟩
      exact ⟨fun c hcm => ⟨h1 c hcm, h2 c hcm⟩, hr⟩

/-- Witness of claim C1 at a childless, unreferenced table. -/
theorem isDeletable_characterization_witness :
    isDeletable σFresh (Table.mk nA [] DeleteActionType.undefined [] false)
      = true :=
  (isDeletable_characterization σFresh
      (Table.mk nA [] DeleteActionType.undefined [] false)).mpr
    ⟨by simp, by simp, by simp⟩

theorem isDeletableChildrenWithIndex_false_of_globalIndex {σ : String → Status}
    {cs : List Table} {c : Table} (hc : c ∈ cs) (hg : c.hasGlobalIndex = true)
    (hnc : σ c.tableName ≠ Status.completed) :
    isDeletableChildrenWithIndex σ cs = false := by
  induction cs with
  | nil => cases hc
  | cons d ds ih =>
    cases d with
    | mk dn dcs da drs dg =>
      rw [isDeletableChildrenWithIndex]
      rcases List.mem_cons.mp hc with heq | hc2
      · subst heq
        simp only [Table.hasGlobalIndex] at hg
        simp only [Table.tableName] at hnc
        simp [hg, hnc]
      · simp [ih hc2]

/-- Claim C2 (deletability of the newer coordinator, modelled from the spec):
a child with a global index that is not Completed makes its parent
undeletable; the predicate ignores the table's own global-index flag; and on
the cascade chain A ← B with B carrying a global index the scheduler selects
B first, then A once B is Completed. -/
theorem childGlobalIndex_blocks_parent :
    (∀ (σ : String → Status) (t c : Table), c ∈ t.childTables →
        c.hasGlobalIndex = true → σ c.tableName ≠ Status.completed →
        isDeletableWithIndex σ t = false)
      ∧ (∀ (σ : String → Status) (n : String) (cs : List Table)
          (a : DeleteActionType) (r : List String) (g1 g2 : Bool),
          isDeletableWithIndex σ (Table.mk n cs a r g1)
            = isDeletableWithIndex σ (Table.mk n cs a r g2))
      ∧ findDeletableTablesWithIndex σFresh [tGA] = [tGB]
      ∧ findDeletableTablesWithIndex σBDone [tGA] = [tGA] := by
  refine ⟨?_, ?_, rfl, rfl⟩
  · intro σ t c hc hg hnc
    cases t with
    | mk n cs a r g =>
      rw [isDeletableWithIndex]
      simp only [Table.childTables] at hc
      rw [isDeletableChildrenWithIndex_false_of_globalIndex hc hg hnc]
      rfl
  · intro σ n cs a r g1 g2
    rw [isDeletableWithIndex, isDeletableWithIndex]

/-- Witness of claim C2: the not-yet-completed indexed child B blocks A. -/
theorem childGlobalIndex_blocks_parent_witness :
    isDeletableWithIndex σFresh tGA = false :=
  childGlobalIndex_blocks_parent.1 σFresh tGA tGB (List.Mem.head _) rfl
    (by decide)

/-- Claim C5 (code bug shown on the failing input): a descriptor whose parent
name is absent from the set is dropped entirely by constructTableTree of
main.go instead of being kept as a root; the graph builder modelled from the
spec keeps it as a root. -/
theorem orphan_child_dropped_by_constructTableTree :
    newCoordinatorTables [schemaCCascade] = []
      ∧ specForestFromSchemas [schemaCCascade]
          = [Table.mk nC [] DeleteActionType.cascadeDelete [] false] :=
  ⟨rfl, rfl⟩

mutual

theorem isAllTablesDeleted_iff (σ : String → Status) :
    ∀ ts : List Table, isAllTablesDeleted σ ts = true ↔
      ∀ t ∈ flattenTables ts, σ t.tableName = Status.completed
  | [] => by simp [isAllTablesDeleted, flattenTables]
  | t :: ts => by
    have h1 := isAllDeletedOne_iff σ t
    have h2 := isAllTablesDeleted_iff σ ts
    rw [isAllTablesDeleted, flattenTables]
    simp only [Bool.and_eq_true, h1, h2, List.mem_append]
    constructor
    · rintro ⟨ha, hb⟩ u hu
      rcases hu with hu | hu
      · exact ha u hu
      · exact hb u hu
    · intro h
      exact ⟨fun u hu => h u (Or.inl hu), fun u hu => h u (Or.inr hu)⟩

theorem isAllDeletedOne_iff (σ : String → Status) :
    ∀ t : Table, isAllDeletedOne σ t = true ↔
      ∀ u ∈ flattenOne t, σ u.tableName = Status.completed
  | Table.mk n cs a r g => by
    have h := isAllTablesDeleted_iff σ cs
    rw [isAllDeletedOne, flattenOne]
    simp only [Bool.and_eq_true, decide_eq_true_eq, h, List.mem_cons]
    constructor
    · rintro ⟨hc, hrest⟩ u hu
      rcases hu with rfl | hu
      · simpa using hc
      · exact hrest u hu
    · intro h2
      exact ⟨by simpa using h2 _ (Or.inl rfl), fun u hu => h2 u (Or.inr hu)⟩

end

mutual

theorem isAnyTableDeleting_iff (σ : String → Status) :
    ∀ ts : List Table, isAnyTableDeleting σ ts = true ↔
      ∃ t ∈ flattenTables ts,
        σ t.tableName = Status.deleting ∨ σ t.tableName = Status.cascadeDeleting
  | [] => by simp [isAnyTableDeleting, flattenTables]
  | t :: ts => by
    have h1 := isAnyDeletingOne_iff σ t
    have h2 := isAnyTableDeleting_iff σ ts
    rw [isAnyTableDeleting, flattenTables]
    simp only [Bool.or_eq_true, h1, h2, List.mem_append]
    constructor
    · rintro (⟨u, hu, hp⟩ | ⟨u, hu, hp⟩)
      · exact ⟨u, Or.inl hu, hp⟩
      · exact ⟨u, Or.inr hu, hp⟩
    · rintro ⟨u, hu | hu, hp⟩
      · exact Or.inl ⟨u, hu, hp⟩
      · exact Or.inr ⟨u, hu, hp⟩

theorem isAnyDeletingOne_iff (σ : String → Status) :
    ∀ t : Table, isAnyDeletingOne σ t = true ↔
      ∃ u ∈ flattenOne t,
        σ u.tableName = Status.deleting ∨ σ u.tableName = Status.cascadeDeleting
  | Table.mk n cs a r g => by
    have h := isAnyTableDeleting_iff σ cs
    rw [isAnyDeletingOne, flattenOne]
    simp only [Bool.or_eq_true, decide_eq_true_eq, h, List.mem_cons]
    constructor
    · rintro (hd | ⟨u, hu, hp⟩)
      · exact ⟨Table.mk n cs a r g, Or.inl rfl, by simpa using hd⟩
      · exact ⟨u, Or.inr hu, hp⟩
    · rintro ⟨u, rfl | hu, hp⟩
      · exact Or.inl (by simpa using hp)
      · exact Or.inr ⟨u, hu, hp⟩

end

theorem stallOnTick_eq (σ : String → Status) (tables : List Table) :
    stallOnTick σ tables
      = ((findDeletableTables σ tables).isEmpty
          && !(isAllTablesDeleted σ tables) && !(isAnyTableDeleting σ tables)) := by
  rw [stallOnTick]
  rcases hfd : findDeletableTables σ tables with _ | ⟨a, l⟩
  · simp only [List.length_nil, List.isEmpty_nil, Bool.true_and, if_pos]
    cases isAllTablesDeleted σ tables <;> cases isAnyTableDeleting σ tables <;>
      simp
  · simp

/-- Claim C6: the coordinator raises a stall error on a tick iff the
deletable set is empty, some table is not Completed, and no table is
Deleting or CascadeDeleting. -/
theorem stall_error_characterization :
    ∀ (σ : String → Status) (tables : List Table),
      stallOnTick σ tables = true ↔
        (findDeletableTables σ tables = []
          ∧ (∃ t ∈ flattenTables tables, σ t.tableName ≠ Status.completed)
          ∧ (∀ t ∈ flattenTables tables,
              σ t.tableName ≠ Status.deleting
                ∧ σ t.tableName ≠ Status.cascadeDeleting)) := by
  intro σ tables
  rw [stallOnTick_eq]
  simp only [Bool.and_eq_true, List.isEmpty_iff, Bool.not_eq_true']
  rw [Bool.eq_false_iff, Bool.eq_false_iff, Ne, Ne,
    isAllTablesDeleted_iff, isAnyTableDeleting_iff]
  push_neg
  constructor
  · rintro ⟨⟨hfd, hex⟩, hany⟩
    exact ⟨hfd, hex, fun t ht => hany t ht⟩
  · rintro ⟨hfd, hex, hany⟩
    exact ⟨⟨hfd, hex⟩, fun t ht => hany t ht⟩

mutual

theorem findDeletableTables_status (σ : String → Status) :
    ∀ (ts : List Table) (t : Table), t ∈ findDeletableTables σ ts →
      σ t.tableName ≠ Status.deleting ∧ σ t.tableName ≠ Status.completed
  | [], t => by simp [findDeletableTables]
  | u :: ts, t => by
    intro ht
    rw [findDeletableTables] at ht
    rcases List.mem_append.mp ht with h | h
    · exact findDeletableOne_status σ u t h
    · exact findDeletableTables_status σ ts t h

theorem findDeletableOne_status (σ : String → Status) :
    ∀ (u t : Table), t ∈ findDeletableOne σ u →
      σ t.tableName ≠ Status.deleting ∧ σ t.tableName ≠ Status.completed
  | Table.mk n cs a r g, t => by
    intro ht
    rw [findDeletableOne] at ht
    split at ht
    · cases ht
    · next hskip =>
      push_neg at hskip
      split at ht
      · have heq : t = Table.mk n cs a r g := List.mem_singleton.mp ht
        subst heq
        simpa using hskip
      · exact findDeletableTables_status σ cs t ht

end

theorem tickMark_cases (ds : String → DeleterState) (t : Table) (n : String) :
    tickMark ds t n = parentDeletionStarted (ds n) ∨ tickMark ds t n = ds n := by
  rw [tickMark]
  split
  · exact Or.inl rfl
  · exact Or.inr rfl

theorem foldl_tickMark_completed (sel : List Table) :
    ∀ (ds : String → DeleterState) (n : String),
      ((sel.foldl tickMark ds) n).status = Status.completed →
      (ds n).status = Status.completed := by
  induction sel with
  | nil => intro ds n h; exact h
  | cons t ts ih =>
    intro ds n h
    have h2 := ih (tickMark ds t) n h
    rcases tickMark_cases ds t n with hc | hc
    · rw [hc] at h2
      simp [parentDeletionStarted] at h2
    · rw [hc] at h2
      exact h2

theorem foldl_tickMark_from_completed (sel : List Table) :
    ∀ (ds : String → DeleterState) (n : String),
      ((ds n).status = Status.completed
        ∨ (ds n).status = Status.cascadeDeleting) →
      (((sel.foldl tickMark ds) n).status = Status.completed
        ∨ ((sel.foldl tickMark ds) n).status = Status.cascadeDeleting) := by
  induction sel with
  | nil => intro ds n h; exact h
  | cons t ts ih =>
    intro ds n h
    apply ih (tickMark ds t) n
    rcases tickMark_cases ds t n with hc | hc
    · rw [hc]
      exact Or.inr rfl
    · rw [hc]
      exact h

theorem foldl_tickMark_counters (sel : List Table) :
    ∀ (ds : String → DeleterState) (n : String),
      ((sel.foldl tickMark ds) n).totalRows = (ds n).totalRows
        ∧ ((sel.foldl tickMark ds) n).remainedRows = (ds n).remainedRows := by
  induction sel with
  | nil => intro ds n; exact ⟨rfl, rfl⟩
  | cons t ts ih =>
    intro ds n
    have h2 := ih (tickMark ds t) n
    rcases tickMark_cases ds t n with hc | hc <;>
      rw [hc] at h2 <;> exact h2

theorem updateRowCount_status_completed (d : DeleterState) (c : Nat) :
    (updateRowCount d c).status = Status.completed ↔
      (c = 0 ∨ d.status = Status.completed) := by
  rw [updateRowCount]
  by_cases hc : c = 0
  · simp [hc]
  · by_cases ha : d.status = Status.analyzing
    · simp [hc, ha]
    · simp [hc, ha]

/-- Claim C7, counterexample: on the chain A ← C (cascade) with C empty from
the start, a reachable run completes C through the sampler, and the next
coordinator tick (selecting A) overwrites the Completed status of C with
CascadeDeleting: Completed is not terminal. -/
theorem completed_status_overwritten_by_cascade :
    Reachable forest0 rows0 state1
      ∧ (state1.deleters nC).status = Status.completed
      ∧ Step forest0 state1 Event.tick state2
      ∧ (state2.deleters nC).status = Status.cascadeDeleting := by
  refine ⟨?_, by decide, ?_, by decide⟩
  · exact Reachable.step Reachable.init
      (Step.sample (initState rows0) nC (by decide) rfl (by decide))
  · exact Step.tick state1

/-- A second escape from Completed, reachable on a single empty table A: the
tick selects A (still Analyzing) and spawns its deleteRows goroutine, the
sampler observes zero and sets Completed, and the delayed goroutine then
performs its unconditional status write, leaving Completed for Deleting. -/
theorem completed_overwritten_by_delayed_delete :
    Reachable forest1 rows1 state4
      ∧ (state4.deleters nA).status = Status.completed
      ∧ Step forest1 state4 (Event.deleteStart nA) state5
      ∧ (state5.deleters nA).status = Status.deleting := by
  refine ⟨?_, by decide, ?_, by decide⟩
  · exact Reachable.step
      (Reachable.step Reachable.init (Step.tick (initState rows1)))
      (Step.sample state3 nA (by decide) rfl (by decide))
  · exact Step.deleteStart state4 nA (by decide)

/-- Claim C7, amended: in every transition of the system, a status becomes
Completed only through a sampler observation of a zero database count (in
particular never through the delete call, which always writes Deleting), and
a Completed status is left only in two ways: the coordinator tick overwrites
it with CascadeDeleting when marking the descendants of a selected ancestor,
or the delayed start of a previously spawned deleteRows goroutine overwrites
it with Deleting. -/
theorem completion_only_by_sampler_zero :
    ∀ (forest : List Table) (s s2 : SysState) (e : Event) (n : String),
      Step forest s e s2 →
      (((s.deleters n).status ≠ Status.completed →
          (s2.deleters n).status = Status.completed →
          e = Event.sample n ∧ s.dbRows n = 0)
        ∧ ((s.deleters n).status = Status.completed →
          (s2.deleters n).status ≠ Status.completed →
          ((e = Event.tick
              ∧ (s2.deleters n).status = Status.cascadeDeleting)
            ∨ (e = Event.deleteStart n
              ∧ (s2.deleters n).status = Status.deleting
              ∧ s.pendingDelete n = true)))) := by
  intro forest s s2 e n hstep
  cases hstep with
  | sample m hmem halive hncomp =>
    constructor
    · intro hpre hpost
      by_cases hnm : n = m
      · subst hnm
        have hcomp : (updateRowCount (s.deleters n) (s.dbRows n)).status
            = Status.completed := by
          simpa [applySample] using hpost
        rcases (updateRowCount_status_completed _ _).mp hcomp with hzero | hc
        · exact ⟨rfl, hzero⟩
        · exact absurd hc hpre
      · have hsame : (applySample s m).deleters n = s.deleters n := by
          simp [applySample, hnm]
        rw [hsame] at hpost
        exact absurd hpost hpre
    · intro hpre hpost
      by_cases hnm : n = m
      · subst hnm
        exact absurd hpre hncomp
      · have hsame : (applySample s m).deleters n = s.deleters n := by
          simp [applySample, hnm]
        rw [hsame] at hpost
        exact absurd hpre hpost
  | samplerExit m halive hcomp =>
    exact ⟨fun hpre hpost => absurd hpost hpre,
      fun hpre hpost => absurd hpre hpost⟩
  | tick =>
    constructor
    · intro hpre hpost
      exact absurd (foldl_tickMark_completed _ s.deleters n hpost) hpre
    · intro hpre hpost
      have hor := foldl_tickMark_from_completed
        (findDeletableTables (statusMap s) forest) s.deleters n (Or.inl hpre)
      rcases hor with hc | hc
      · exact absurd hc hpost
      · exact Or.inl ⟨rfl, hc⟩
  | deleteStart m hpend =>
    constructor
    · intro hpre hpost
      by_cases hnm : n = m
      · subst hnm
        have hdel : ((applyDeleteStart s n).deleters n).status
            = Status.deleting := by
          simp [applyDeleteStart, deleteRows]
        rw [hdel] at hpost
        cases hpost
      · have hsame : (applyDeleteStart s m).deleters n = s.deleters n := by
          simp [applyDeleteStart, hnm]
        rw [hsame] at hpost
        exact absurd hpost hpre
    · intro hpre hpost
      by_cases hnm : n = m
      · subst hnm
        refine Or.inr ⟨rfl, ?_, hpend⟩
        simp [applyDeleteStart, deleteRows]
      · have hsame : (applyDeleteStart s m).deleters n = s.deleters n := by
          simp [applyDeleteStart, hnm]
        rw [hsame] at hpost
        exact absurd hpre hpost
  | rowsChange m k hst hle =>
    exact ⟨fun hpre hpost => absurd hpost hpre,
      fun hpre hpost => absurd hpre hpost⟩

/-- Witness of the amended claim C7 at the sampler observation on C. -/
theorem completion_only_by_sampler_zero_witness :
    Event.sample nC = Event.sample nC ∧ (initState rows0).dbRows nC = 0 :=
  (completion_only_by_sampler_zero forest0 (initState rows0) state1
      (Event.sample nC) nC
      (Step.sample (initState rows0) nC (by decide) rfl (by decide))).1
    (by decide) (by decide)

/-- Claim C10: deleteRows only writes the status field, setting it to
Deleting whatever the partitioned update returns; across every system
transition, a change of totalRows or remainedRows of any table happens only
in a sampler observation of that table. -/
theorem deleteRows_frame :
    (∀ (d : DeleterState) (r : Except String Nat),
        (deleteRows d r).1 = { d with status := Status.deleting })
      ∧ (∀ (forest : List Table) (s s2 : SysState) (e : Event) (n : String),
          Step forest s e s2 →
          ((s2.deleters n).totalRows ≠ (s.deleters n).totalRows
            ∨ (s2.deleters n).remainedRows ≠ (s.deleters n).remainedRows) →
          e = Event.sample n) := by
  refine ⟨fun d r => rfl, ?_⟩
  intro forest s s2 e n hstep hch
  cases hstep with
  | sample m hmem halive hncomp =>
    by_cases hnm : n = m
    · subst hnm
      rfl
    · exfalso
      have hsame : (applySample s m).deleters n = s.deleters n := by
        simp [applySample, hnm]
      rw [hsame] at hch
      rcases hch with h | h <;> exact h rfl
  | samplerExit m _ _ =>
    exfalso
    rcases hch with h | h <;> exact h rfl
  | tick =>
    exfalso
    have h2 := foldl_tickMark_counters
      (findDeletableTables (statusMap s) forest) s.deleters n
    rcases hch with h | h
    · exact h h2.1
    · exact h h2.2
  | deleteStart m hpend =>
    exfalso
    by_cases hnm : n = m
    · subst hnm
      have hsame : (applyDeleteStart s n).deleters n
          = (deleteRows (s.deleters n) (Except.ok 0)).1 := by
        simp [applyDeleteStart]
      rw [hsame] at hch
      rcases hch with h | h <;> exact h rfl
    · have hsame : (applyDeleteStart s m).deleters n = s.deleters n := by
        simp [applyDeleteStart, hnm]
      rw [hsame] at hch
      rcases hch with h | h <;> exact h rfl
  | rowsChange m k _ _ =>
    exfalso
    rcases hch with h | h <;> exact h rfl

/-- Witness of claim C10 at a first observation of five rows in table A. -/
theorem deleteRows_frame_witness : Event.sample nA = Event.sample nA :=
  deleteRows_frame.2 forest0 (initState rows0)
    (applySample (initState rows0) nA) (Event.sample nA) nA
    (Step.sample (initState rows0) nA (by decide) rfl (by decide))
    (Or.inl (by decide))
